import Mathlib

/-!
Shallow embedding of the FlashKV persistent key-value store
(src/src/FlashKV.cpp, src/include/FlashKV/FlashKV.h).

Modelling conventions:
- Byte strings (std::string keys, std::vector<uint8_t> values, flash
  contents) are lists of natural numbers; genuine byte data satisfies
  the bound b < 256, which the read path enforces with an explicit
  truncation (`fit`) exactly where the C++ type system guarantees it.
- size_t arithmetic wraps modulo 2^64 (`usz`, `uszSub`); the uint32_t
  flash-address parameter of the adapter functions wraps modulo 2^32
  (`u32`); uint16_t length fields are serialised as two little-endian
  bytes, which truncates modulo 2^16, exactly as the C++ narrowing does.
- The flash adapter is a triple of caller-supplied functions.  Reads are
  pure: a read function returns a success flag together with whatever
  bytes end up in the caller's buffer (on failure that is arbitrary data
  chosen by the model, mirroring an indeterminate C++ buffer).  Writes
  and erases transform an abstract device state.
- Every operation additionally returns the list of flash-adapter calls
  it performed (`FlashOp` trace), so that claims about which flash
  primitives run, and with which arguments, are statable.
- The unordered_map is modelled as an association list with
  insert-or-assign (`mapInsert`), lookup (`mapFind`) and erase
  (`mapErase`); iteration order for serialisation is the list order,
  one concrete instance of the implementation-defined order.
- The while(1) parse loop of loadMap has no bound in the source, so it
  is embedded with explicit fuel; exhausted fuel yields `none`
  (divergence), and theorems about terminating executions quantify over
  sufficient fuel.
-/

namespace FlashKV

/-- Truncation to size_t (64-bit) range, mirroring C++ size_t wrap-around. -/
def usz (n : Nat) : Nat := n % 18446744073709551616

/-- size_t subtraction a - b with two's-complement wrap-around. -/
def uszSub (a b : Nat) : Nat := usz (a + (18446744073709551616 - usz b))

/-- Truncation to uint32_t range, applied to the flashAddress argument of
the adapter functions. -/
def u32 (n : Nat) : Nat := n % 4294967296

/-- The 4-byte signature literal FKVS. -/
def FLASHKV_SIGNATURE : List Nat := [70, 75, 86, 83]

/-- Size of the signature. -/
def FLASHKV_SIGNATURE_SIZE : Nat := 4

/-- Region descriptor fixed at construction (page size, sector size,
base address, total size), the non-function constructor arguments. -/
structure FlashKVConfig where
  flashPageSize : Nat
  flashSectorSize : Nat
  flashAddress : Nat
  flashSize : Nat
deriving DecidableEq

/-- Mutable engine state: the in-memory map, the serialised-size tally
and the loaded flag. -/
structure FlashKVState where
  keyValueMap : List (List Nat × List Nat)
  serialisedSize : Nat
  mapLoaded : Bool
deriving DecidableEq

/-- State of a freshly constructed engine: empty map, zero tally and the
loaded flag unset (the spec lifecycle: the map is empty and unusable
until loadMap runs). -/
def initialState : FlashKVState :=
  { keyValueMap := [], serialisedSize := 0, mapLoaded := false }

/-- One flash-adapter call, recorded with its arguments. -/
inductive FlashOp where
  | read (addr count : Nat)
  | write (addr : Nat) (data : List Nat)
  | erase (addr count : Nat)
deriving DecidableEq

/-- Contents of a C++ buffer of n bytes after a read that supplied l:
the first n supplied values truncated to bytes, zero-filled (resize
semantics) when fewer than n values were supplied. -/
def fit (n : Nat) (l : List Nat) : List Nat :=
  (l.take n).map (fun b => b % 256) ++ List.replicate (n - l.length) 0

/-- Little-endian reinterpretation of a 2-byte buffer as uint16_t
(host byte order of the reference little-endian target). -/
def bytesToU16 (l : List Nat) : Nat := l.getD 0 0 + 256 * l.getD 1 0

/-- Little-endian bytes of `uint16_t x = n` (narrowing modulo 2^16). -/
def serialiseU16 (n : Nat) : List Nat := [n % 256, n / 256 % 256]

/-- unordered_map operator[] followed by assignment: overwrite the entry
in place when the key is present, append it otherwise. -/
def mapInsert : List (List Nat × List Nat) → List Nat → List Nat →
    List (List Nat × List Nat)
  | [], k, v => [(k, v)]
  | (k', v') :: rest, k, v =>
      if k' = k then (k, v) :: rest else (k', v') :: mapInsert rest k v

/-- unordered_map find. -/
def mapFind : List (List Nat × List Nat) → List Nat → Option (List Nat)
  | [], _ => none
  | (k', v') :: rest, k => if k' = k then some v' else mapFind rest k

/-- unordered_map erase of a found iterator. -/
def mapErase : List (List Nat × List Nat) → List Nat →
    List (List Nat × List Nat)
  | [], _ => []
  | (k', v') :: rest, k =>
      if k' = k then rest else (k', v') :: mapErase rest k

/-- The record-parsing while(1) loop of FlashKV::loadMap, with explicit
fuel.  Returns the accumulated map, the final offset (the loop breaks at
a zero key size before advancing, so the offset of the sentinel record
is returned) and the trace of read calls.  Mirrors FlashKV.cpp lines
65-96: the success flags of the reads inside the loop are ignored, as
in the source. -/
def parseLoop (readF : Nat → Nat → Bool × List Nat) (flashAddress : Nat) :
    Nat → Nat → List (List Nat × List Nat) →
    Option (List (List Nat × List Nat) × Nat × List FlashOp)
  | 0, _, _ => none
  | Nat.succ fuel, offset, m =>
    let r1 := readF (u32 (flashAddress + offset)) 2
    let keySize := bytesToU16 (fit 2 r1.2)
    if keySize = 0 then
      some (m, offset, [FlashOp.read (u32 (flashAddress + offset)) 2])
    else
      let offset1 := usz (offset + 2)
      let r2 := readF (u32 (flashAddress + offset1)) keySize
      let key := fit keySize r2.2
      let offset2 := usz (offset1 + keySize)
      let r3 := readF (u32 (flashAddress + offset2)) 2
      let valueSize := bytesToU16 (fit 2 r3.2)
      let offset3 := usz (offset2 + 2)
      let r4 := readF (u32 (flashAddress + offset3)) valueSize
      let value := fit valueSize r4.2
      let offset4 := usz (offset3 + valueSize)
      match parseLoop readF flashAddress fuel offset4 (mapInsert m key value) with
      | none => none
      | some (m2, off2, tr2) =>
        some (m2, off2,
          FlashOp.read (u32 (flashAddress + offset)) 2 ::
          FlashOp.read (u32 (flashAddress + offset1)) keySize ::
          FlashOp.read (u32 (flashAddress + offset2)) 2 ::
          FlashOp.read (u32 (flashAddress + offset3)) valueSize :: tr2)

/-- FlashKV::loadMap (FlashKV.cpp lines 54-110).  Reads the signature
(aborting with -1 when that read reports failure), then either parses
the record stream (result 0) or marks the map loaded with result 1 when
the signature does not match.  `none` models a diverging parse loop. -/
def loadMap (readF : Nat → Nat → Bool × List Nat) (cfg : FlashKVConfig)
    (s : FlashKVState) (fuel : Nat) :
    Option (Int × FlashKVState × List FlashOp) :=
  let r := readF (u32 cfg.flashAddress) FLASHKV_SIGNATURE_SIZE
  if r.1 = false then
    some (-1, s, [FlashOp.read (u32 cfg.flashAddress) FLASHKV_SIGNATURE_SIZE])
  else if fit FLASHKV_SIGNATURE_SIZE r.2 = FLASHKV_SIGNATURE then
    match parseLoop readF cfg.flashAddress fuel FLASHKV_SIGNATURE_SIZE s.keyValueMap with
    | none => none
    | some (m, offset, tr) =>
      some (0,
        { s with keyValueMap := m, serialisedSize := offset, mapLoaded := true },
        FlashOp.read (u32 cfg.flashAddress) FLASHKV_SIGNATURE_SIZE :: tr)
  else
    some (1, { s with mapLoaded := true },
      [FlashOp.read (u32 cfg.flashAddress) FLASHKV_SIGNATURE_SIZE])

/-- Serialisation of the map entries in iteration order: for each entry
the 2-byte key length, the key bytes, the 2-byte value length and the
value bytes (FlashKV.cpp lines 129-140). -/
def serialiseEntries : List (List Nat × List Nat) → List Nat
  | [] => []
  | (k, v) :: rest =>
      serialiseU16 k.length ++ k ++ serialiseU16 v.length ++ v ++
        serialiseEntries rest

/-- The buffer FlashKV::saveMap builds: signature, entries, then zero
padding while the buffer is smaller than the region size (FlashKV.cpp
lines 122-144; note the source pads up to _flashSize, and pads nothing
when the buffer is already at least that large). -/
def saveBuffer (cfg : FlashKVConfig) (m : List (List Nat × List Nat)) :
    List Nat :=
  let b := FLASHKV_SIGNATURE ++ serialiseEntries m
  b ++ List.replicate (cfg.flashSize - b.length) 0

/-- FlashKV::saveMap (FlashKV.cpp lines 112-151) over an abstract flash
device of type δ: fail when not loaded (no flash access), erase the
whole region (abort on failure), then write the buffer with a single
write call at the region base. -/
def saveMap {δ : Type} (eraseF : δ → Nat → Nat → Bool × δ)
    (writeF : δ → Nat → List Nat → Bool × δ) (cfg : FlashKVConfig)
    (s : FlashKVState) (d : δ) : Bool × FlashKVState × δ × List FlashOp :=
  if s.mapLoaded = false then (false, s, d, [])
  else
    let er := eraseF d (u32 cfg.flashAddress) cfg.flashSize
    if er.1 = false then
      (false, s, er.2, [FlashOp.erase (u32 cfg.flashAddress) cfg.flashSize])
    else
      let buffer := saveBuffer cfg s.keyValueMap
      let wr := writeF er.2 (u32 cfg.flashAddress) buffer
      if wr.1 = false then
        (false, s, wr.2,
          [FlashOp.erase (u32 cfg.flashAddress) cfg.flashSize,
           FlashOp.write (u32 cfg.flashAddress) buffer])
      else
        (true, s, wr.2,
          [FlashOp.erase (u32 cfg.flashAddress) cfg.flashSize,
           FlashOp.write (u32 cfg.flashAddress) buffer])

/-- FlashKV::writeKey (FlashKV.cpp lines 153-168): fail when not
loaded; accept when the wrapped size_t sum tally + 2 + keyLen + 2 +
valueLen stays within the region size, inserting the entry and setting
the tally to that sum; reject otherwise.  No flash function is in scope:
the operation touches memory only. -/
def writeKey (cfg : FlashKVConfig) (s : FlashKVState)
    (key value : List Nat) : Bool × FlashKVState :=
  if s.mapLoaded = false then (false, s)
  else if usz (s.serialisedSize + 2 + key.length + 2 + value.length) ≤ cfg.flashSize then
    (true,
      { s with keyValueMap := mapInsert s.keyValueMap key value,
               serialisedSize :=
                 usz (s.serialisedSize + 2 + key.length + 2 + value.length) })
  else (false, s)

/-- FlashKV::readKey (FlashKV.cpp lines 170-183): nullopt when not
loaded, otherwise map lookup.  Memory only. -/
def readKey (s : FlashKVState) (key : List Nat) : Option (List Nat) :=
  if s.mapLoaded = false then none else mapFind s.keyValueMap key

/-- FlashKV::eraseKey (FlashKV.cpp lines 185-201): fail when not loaded
or the key is absent; otherwise subtract the entry footprint from the
tally (size_t subtraction) and remove the entry.  Memory only. -/
def eraseKey (s : FlashKVState) (key : List Nat) : Bool × FlashKVState :=
  if s.mapLoaded = false then (false, s)
  else
    match mapFind s.keyValueMap key with
    | some v =>
      (true,
        { s with keyValueMap := mapErase s.keyValueMap key,
                 serialisedSize :=
                   uszSub s.serialisedSize (2 + key.length + 2 + v.length) })
    | none => (false, s)

/-- FlashKV::getAllKeys (FlashKV.cpp lines 203-210). -/
def getAllKeys (s : FlashKVState) : List (List Nat) :=
  s.keyValueMap.map Prod.fst

/-- The destructor FlashKV::~FlashKV (FlashKV.cpp lines 50-52): its body
is empty, so teardown changes nothing and performs no flash call. -/
def flashKVDestructor (s : FlashKVState) : FlashKVState × List FlashOp :=
  (s, [])

/-- A concrete flash device: a byte-addressed memory. -/
def Mem : Type := Nat → Nat

/-- Overwrite a range of the memory with the given data. -/
def memStore (m : Mem) (a : Nat) (data : List Nat) : Mem :=
  fun x => if a ≤ x ∧ x < a + data.length then data.getD (x - a) 0 else m x

/-- A read function over a concrete memory: always succeeds and returns
the addressed bytes. -/
def memReadF (m : Mem) (a c : Nat) : Bool × List Nat :=
  (true, (List.range c).map (fun i => m (a + i)))

/-- A write function over a concrete memory: always succeeds. -/
def memWriteF (m : Mem) (a : Nat) (data : List Nat) : Bool × Mem :=
  (true, memStore m a data)

/-- An erase function over a concrete memory: always succeeds, setting
the erased range to the erased-flash byte 0xFF. -/
def memEraseF (m : Mem) (a c : Nat) : Bool × Mem :=
  (true, fun x => if a ≤ x ∧ x < a + c then 255 else m x)

/-- Blank (erased) flash: every byte 0xFF. -/
def blankMem : Mem := fun _ => 255

/-- The serialised footprint 2 + keyLen + 2 + valueLen of one entry. -/
def entryFootprint (kv : List Nat × List Nat) : Nat :=
  2 + kv.1.length + 2 + kv.2.length

/-- Sum of the serialised footprints of all entries of a map. -/
def entriesFootprint (m : List (List Nat × List Nat)) : Nat :=
  (m.map entryFootprint).sum

/-- The tally invariant of the spec: the tracked serialised size equals
the signature size plus the total footprint of the current entries. -/
abbrev sizeInvariant (s : FlashKVState) : Prop :=
  s.serialisedSize = FLASHKV_SIGNATURE_SIZE + entriesFootprint s.keyValueMap

/-- Entry whose key and value round-trip through the 16-bit length
fields: nonempty key, lengths below 2^16, and genuine byte data. -/
abbrev goodEntry (kv : List Nat × List Nat) : Prop :=
  1 ≤ kv.1.length ∧ kv.1.length < 65536 ∧ kv.2.length < 65536 ∧
    (∀ b ∈ kv.1, b < 256) ∧ (∀ b ∈ kv.2, b < 256)

/-- The keys of the map are pairwise distinct. -/
abbrev distinctKeys (m : List (List Nat × List Nat)) : Prop :=
  (m.map Prod.fst).Nodup

/-- Predicate taken from the spec sentence of claim C6: every write call
in the trace writes exactly one page, at a page-aligned offset from the
region base.  This is the claim side of the comparison, not code. -/
def specPageChunked (pageSize base : Nat) (tr : List FlashOp) : Bool :=
  tr.all fun op =>
    match op with
    | FlashOp.write a d =>
        (d.length == pageSize) && (Nat.ble base a) &&
          ((a - base) % pageSize == 0)
    | _ => true

/-- The memory agrees with the byte list l starting at address start. -/
def memAgrees (mem : Mem) (start : Nat) (l : List Nat) : Prop :=
  ∀ i, i < l.length → mem (start + i) = l.getD i 0

/-- A small test region: page 8, sector 8, base 0, size 32. -/
def cfgSmall : FlashKVConfig := ⟨8, 8, 0, 32⟩

/-- A region whose page size (4) differs from its total size (8). -/
def cfgPage4 : FlashKVConfig := ⟨4, 8, 0, 8⟩

/-- A 16-byte region with 16-byte pages. -/
def cfgTiny16 : FlashKVConfig := ⟨16, 16, 0, 16⟩

/-- A roomy region for tally experiments. -/
def cfgWide : FlashKVConfig := ⟨16, 16, 0, 100⟩

/-- A 64-byte region used with the failing read function. -/
def cfgBad : FlashKVConfig := ⟨16, 16, 0, 64⟩

/-- Flash holding a bare signature followed by zero bytes: a valid empty
store image. -/
def memSigOnly : Mem := fun a => if a < 4 then FLASHKV_SIGNATURE.getD a 0 else 0

/-- A read function that succeeds (returning the signature) only at
address 0 and reports failure everywhere else, supplying zero bytes as
the buffer contents of the failed reads. -/
def badReadF : Nat → Nat → Bool × List Nat :=
  fun a _ => if a = 0 then (true, [70, 75, 86, 83]) else (false, [0, 0])

/-- An erase function over a unit-like device that always fails. -/
def failEraseF : Nat → Nat → Nat → Bool × Nat := fun d _ _ => (false, d)

/-- An erase function over a unit-like device that always succeeds. -/
def okEraseF : Nat → Nat → Nat → Bool × Nat := fun d _ _ => (true, d)

/-- A write function over a unit-like device that always fails. -/
def failWriteF : Nat → Nat → List Nat → Bool × Nat := fun d _ _ => (false, d)

/-- A write function over a unit-like device that always succeeds. -/
def okWriteF : Nat → Nat → List Nat → Bool × Nat := fun d _ _ => (true, d)

/-- C4: for a loaded engine, a writeKey whose added footprint
2 + keyLen + 2 + valueLen would push the tracked serialised size past
the region size returns false and leaves the whole state (map and
tally) unchanged; writeKey takes no flash function and performs no
flash call.  The size-bound hypothesis reflects that the C++ operands
are size_t values whose sum does not wrap. -/
theorem flashkv_C4 (cfg : FlashKVConfig) (s : FlashKVState)
    (key value : List Nat) (hl : s.mapLoaded = true)
    (h64 : s.serialisedSize + 2 + key.length + 2 + value.length <
      18446744073709551616)
    (hover : cfg.flashSize <
      s.serialisedSize + 2 + key.length + 2 + value.length) :
    writeKey cfg s key value = (false, s) := by
  have h1 : usz (s.serialisedSize + 2 + key.length + 2 + value.length) =
      s.serialisedSize + 2 + key.length + 2 + value.length :=
    Nat.mod_eq_of_lt h64
  rw [writeKey, hl]
  simp only [h1]
  rw [if_neg (by simp), if_neg (by omega)]

/-- Witness for C4 at a concrete input: a loaded 32-byte region with
tally 30 rejects a write of footprint 6 and is left unchanged. -/
theorem flashkv_C4_witness :
    ((⟨[], 30, true⟩ : FlashKVState).mapLoaded = true ∧
      (30 : Nat) + 2 + 1 + 2 + 1 < 18446744073709551616 ∧
      cfgSmall.flashSize < 30 + 2 + 1 + 2 + 1) ∧
    writeKey cfgSmall ⟨[], 30, true⟩ [9] [9] = (false, ⟨[], 30, true⟩) :=
  ⟨by decide, flashkv_C4 cfgSmall ⟨[], 30, true⟩ [9] [9] (by decide)
    (by decide) (by decide)⟩

/-- C5: before a successful load (loaded flag unset) every key
operation and saveMap fails immediately — false or none — with the
state unchanged, and no flash primitive is invoked: the device is
returned untouched and the operation trace is empty (writeKey, readKey
and eraseKey take no flash function at all). -/
theorem flashkv_C5 {δ : Type} (eraseF : δ → Nat → Nat → Bool × δ)
    (writeF : δ → Nat → List Nat → Bool × δ) (cfg : FlashKVConfig)
    (s : FlashKVState) (key value : List Nat) (d : δ)
    (h : s.mapLoaded = false) :
    writeKey cfg s key value = (false, s) ∧ readKey s key = none ∧
    eraseKey s key = (false, s) ∧
    saveMap eraseF writeF cfg s d = (false, s, d, []) := by
  refine ⟨?_, ?_, ?_, ?_⟩ <;> simp [writeKey, readKey, eraseKey, saveMap, h]

/-- Witness for C5: the freshly constructed engine state rejects all
four operations. -/
theorem flashkv_C5_witness :
    initialState.mapLoaded = false ∧
    (writeKey cfgSmall initialState [1] [2] = (false, initialState) ∧
      readKey initialState [1] = none ∧
      eraseKey initialState [1] = (false, initialState) ∧
      saveMap okEraseF okWriteF cfgSmall initialState 0 =
        (false, initialState, 0, [])) :=
  ⟨rfl, flashkv_C5 okEraseF okWriteF cfgSmall initialState [1] [2] 0 rfl⟩

/-- C7: for a loaded engine, if the erase call or the write call made
by saveMap reports failure, saveMap returns false and the in-memory
map and tracked serialised size (the whole engine state) are exactly as
before, so the caller may retry. -/
theorem flashkv_C7 {δ : Type} (eraseF : δ → Nat → Nat → Bool × δ)
    (writeF : δ → Nat → List Nat → Bool × δ) (cfg : FlashKVConfig)
    (s : FlashKVState) (d : δ) (hl : s.mapLoaded = true)
    (hfail : (eraseF d (u32 cfg.flashAddress) cfg.flashSize).1 = false ∨
      (writeF (eraseF d (u32 cfg.flashAddress) cfg.flashSize).2
        (u32 cfg.flashAddress) (saveBuffer cfg s.keyValueMap)).1 = false) :
    (saveMap eraseF writeF cfg s d).1 = false ∧
    (saveMap eraseF writeF cfg s d).2.1 = s := by
  rcases hfail with h | h
  · simp [saveMap, hl, h]
  · rcases hE : (eraseF d (u32 cfg.flashAddress) cfg.flashSize).1 with _ | _
    · simp [saveMap, hl, hE]
    · simp [saveMap, hl, hE, h]

/-- Witness for C7: with an always-failing erase function, saveMap on a
loaded state fails and returns the state unchanged. -/
theorem flashkv_C7_witness :
    ((⟨[], 4, true⟩ : FlashKVState).mapLoaded = true ∧
      (failEraseF 0 (u32 cfgSmall.flashAddress) cfgSmall.flashSize).1 =
        false) ∧
    ((saveMap failEraseF okWriteF cfgSmall ⟨[], 4, true⟩ 0).1 = false ∧
      (saveMap failEraseF okWriteF cfgSmall ⟨[], 4, true⟩ 0).2.1 =
        ⟨[], 4, true⟩) :=
  ⟨by decide, flashkv_C7 failEraseF okWriteF cfgSmall ⟨[], 4, true⟩ 0 rfl
    (Or.inl (by decide))⟩

/-- C8 (amended): the destructor body is empty, so engine teardown
leaves the state unchanged and performs no flash operation at all; in
particular no final saveMap is attempted. -/
theorem flashkv_C8 (s : FlashKVState) : flashKVDestructor s = (s, []) := rfl

/-- Counterexample to C8 as stated: from a loaded state over a blank
device, a saveMap call performs flash operations (an erase, then a
write), but running the destructor from the same state performs none,
so destruction does not attempt a save. -/
theorem flashkv_C8_cex :
    (flashKVDestructor ⟨[], 4, true⟩).2 = [] ∧
    (saveMap memEraseF memWriteF cfgPage4 ⟨[], 4, true⟩ blankMem).1 =
      true ∧
    (saveMap memEraseF memWriteF cfgPage4 ⟨[], 4, true⟩ blankMem).2.2.2 ≠
      [] := by
  refine ⟨rfl, ?_, ?_⟩ <;> decide

/-- Counterexample to C2 as stated: a loaded state satisfying the tally
invariant (tally 10 = 4 + footprint 6) accepts an overwrite of the
existing key [1], after which the tally is 16: writeKey added the full
footprint of the new entry without subtracting the footprint of the
entry it replaced, so the invariant does not survive overwrites. -/
theorem flashkv_C2_cex :
    sizeInvariant ⟨[([1], [2])], 10, true⟩ ∧
    (writeKey cfgWide ⟨[([1], [2])], 10, true⟩ [1] [3]).1 = true ∧
    ¬ sizeInvariant (writeKey cfgWide ⟨[([1], [2])], 10, true⟩ [1] [3]).2 := by
  decide

/-- Counterexample to C6 as stated: on a region with page size 4 and
total size 8, a successful saveMap performs a single 8-byte write call,
not a sequence of page-sized (4-byte) writes, so the page-chunking
property taken from the spec fails. -/
theorem flashkv_C6_cex :
    (saveMap memEraseF memWriteF cfgPage4 ⟨[], 4, true⟩ blankMem).1 =
      true ∧
    cfgPage4.flashPageSize = 4 ∧
    specPageChunked cfgPage4.flashPageSize cfgPage4.flashAddress
      (saveMap memEraseF memWriteF cfgPage4 ⟨[], 4, true⟩ blankMem).2.2.2 =
      false := by
  decide

/-- C3 at its failing input: the read function succeeds on the
signature read at address 0 but reports failure on every later read.
loadMap nevertheless returns 0 (success): it performed the parse read
at address 4 (visible in the trace), that read reported failure, and
the claimed abort with -1 did not happen, because the source ignores
the return values of the reads inside the parse loop. -/
theorem flashkv_C3 :
    (badReadF 4 2).1 = false ∧
    loadMap badReadF cfgBad initialState 2 =
      some (0, ⟨[], 4, true⟩, [FlashOp.read 0 4, FlashOp.read 4 2]) := by
  decide

/-- C10 at its failing input: on a 16-byte region, loadMap over blank
flash reports "no map found" and leaves the tally at 0 (not counting
the 4 signature bytes); a writeKey of footprint 14 is admitted; the
following saveMap then hands the flash write function an 18-byte
buffer, which extends 2 bytes beyond the 16-byte region. -/
theorem flashkv_C10 :
    loadMap (memReadF blankMem) cfgTiny16 initialState 2 =
      some (1, ⟨[], 0, true⟩, [FlashOp.read 0 4]) ∧
    writeKey cfgTiny16 ⟨[], 0, true⟩ [97, 98] [1, 2, 3, 4, 5, 6, 7, 8] =
      (true, ⟨[([97, 98], [1, 2, 3, 4, 5, 6, 7, 8])], 14, true⟩) ∧
    (saveMap memEraseF memWriteF cfgTiny16
        ⟨[([97, 98], [1, 2, 3, 4, 5, 6, 7, 8])], 14, true⟩ blankMem).2.2.2 =
      [FlashOp.erase 0 16,
        FlashOp.write 0
          [70, 75, 86, 83, 2, 0, 97, 98, 8, 0, 1, 2, 3, 4, 5, 6, 7, 8]] ∧
    cfgTiny16.flashSize <
      (saveBuffer cfgTiny16 [([97, 98], [1, 2, 3, 4, 5, 6, 7, 8])]).length := by
  decide

/-- Lookup fails exactly when the key is not among the map's keys. -/
theorem mapFind_eq_none (m : List (List Nat × List Nat)) (k : List Nat) :
    mapFind m k = none ↔ k ∉ m.map Prod.fst := by
  induction m with
  | nil => simp [mapFind]
  | cons kv rest ih =>
    obtain ⟨k', v'⟩ := kv
    by_cases h : k' = k
    · subst h
      simp [mapFind]
    · simp only [mapFind, if_neg h, List.map_cons, List.mem_cons, ih]
      constructor
      · rintro h2 (h3 | h3)
        · exact h h3.symm
        · exact h2 h3
      · intro h2 h3
        exact h2 (Or.inr h3)

/-- Inserting an absent key appends the entry at the end. -/
theorem mapInsert_of_notMem (m : List (List Nat × List Nat))
    (k : List Nat) (v : List Nat) (h : k ∉ m.map Prod.fst) :
    mapInsert m k v = m ++ [(k, v)] := by
  induction m with
  | nil => rfl
  | cons kv rest ih =>
    obtain ⟨k', v'⟩ := kv
    simp only [List.map_cons, List.mem_cons, not_or] at h
    have hne : k' ≠ k := fun e => h.1 e.symm
    simp [mapInsert, hne, ih h.2]

/-- Footprint of a map extended with one appended entry. -/
theorem entriesFootprint_append (m : List (List Nat × List Nat))
    (kv : List Nat × List Nat) :
    entriesFootprint (m ++ [kv]) = entriesFootprint m + entryFootprint kv := by
  simp [entriesFootprint]

/-- The footprint of a found entry is at most the total footprint. -/
theorem entryFootprint_le_of_find (m : List (List Nat × List Nat))
    (k v : List Nat) (h : mapFind m k = some v) :
    entryFootprint (k, v) ≤ entriesFootprint m := by
  induction m with
  | nil => simp [mapFind] at h
  | cons kv rest ih =>
    obtain ⟨k', v'⟩ := kv
    by_cases e : k' = k
    · subst e
      simp [mapFind] at h
      subst h
      simp [entriesFootprint, entryFootprint]
    · simp only [mapFind, if_neg e] at h
      have := ih h
      simp only [entriesFootprint, List.map_cons, List.sum_cons] at *
      omega

/-- Erasing a found entry removes exactly its footprint. -/
theorem entriesFootprint_erase (m : List (List Nat × List Nat))
    (k v : List Nat) (h : mapFind m k = some v) :
    entriesFootprint (mapErase m k) =
      entriesFootprint m - entryFootprint (k, v) := by
  induction m with
  | nil => simp [mapFind] at h
  | cons kv rest ih =>
    obtain ⟨k', v'⟩ := kv
    by_cases e : k' = k
    · subst e
      simp [mapFind] at h
      subst h
      simp [mapErase, entriesFootprint, entryFootprint]
    · simp only [mapFind, if_neg e] at h
      have h2 := entryFootprint_le_of_find rest k v h
      have h3 := ih h
      simp only [mapErase, if_neg e, entriesFootprint, List.map_cons,
        List.sum_cons] at *
      omega

/-- C2 (amended): on a loaded engine whose tally satisfies the
invariant (tally = signature size + total entry footprint) and stays
within the region, a writeKey of a key that is absent from the map
preserves the invariant and the region bound, and every eraseKey
preserves them as well.  The original claim fails for writeKey of an
already-present key (see the counterexample): the engine adds the full
footprint of the new entry without crediting the replaced one.  After a
not-found load the tally is 0, so the invariant here is established
only by a found load of a well-formed image.  The two size-bound
hypotheses reflect non-wrapping size_t arithmetic. -/
theorem flashkv_C2 (cfg : FlashKVConfig) (s : FlashKVState)
    (key value : List Nat) (hl : s.mapLoaded = true)
    (hinv : sizeInvariant s) (hb : s.serialisedSize ≤ cfg.flashSize)
    (hsz : cfg.flashSize < 18446744073709551616)
    (h64 : s.serialisedSize + 2 + key.length + 2 + value.length <
      18446744073709551616) :
    (mapFind s.keyValueMap key = none →
      sizeInvariant (writeKey cfg s key value).2 ∧
      (writeKey cfg s key value).2.serialisedSize ≤ cfg.flashSize) ∧
    (sizeInvariant (eraseKey s key).2 ∧
      (eraseKey s key).2.serialisedSize ≤ cfg.flashSize) := by
  have h1 : usz (s.serialisedSize + 2 + key.length + 2 + value.length) =
      s.serialisedSize + 2 + key.length + 2 + value.length :=
    Nat.mod_eq_of_lt h64
  constructor
  · intro hfind
    by_cases hc : usz (s.serialisedSize + 2 + key.length + 2 + value.length) ≤
        cfg.flashSize
    · have hnot := (mapFind_eq_none s.keyValueMap key).mp hfind
      simp only [writeKey, hl, Bool.true_eq_false, if_false, if_pos hc]
      refine ⟨?_, by omega⟩
      show usz (s.serialisedSize + 2 + key.length + 2 + value.length) =
        FLASHKV_SIGNATURE_SIZE +
          entriesFootprint (mapInsert s.keyValueMap key value)
      rw [h1, mapInsert_of_notMem _ _ _ hnot, entriesFootprint_append]
      have : entryFootprint (key, value) = 2 + key.length + 2 + value.length := rfl
      rw [this]
      have hinv2 : s.serialisedSize =
          FLASHKV_SIGNATURE_SIZE + entriesFootprint s.keyValueMap := hinv
      omega
    · simp only [writeKey, hl, Bool.true_eq_false, if_false, if_neg hc]
      exact ⟨hinv, hb⟩
  · cases hf : mapFind s.keyValueMap key with
    | none =>
      simp only [eraseKey, hl, Bool.true_eq_false, if_false, hf]
      exact ⟨hinv, hb⟩
    | some v =>
      have hle := entryFootprint_le_of_find _ _ _ hf
      have her := entriesFootprint_erase _ _ _ hf
      have hfp : entryFootprint (key, v) = 2 + key.length + 2 + v.length := rfl
      have hinv2 : s.serialisedSize =
          FLASHKV_SIGNATURE_SIZE + entriesFootprint s.keyValueMap := hinv
      have hsig : FLASHKV_SIGNATURE_SIZE = 4 := rfl
      simp only [eraseKey, hl, Bool.true_eq_false, if_false, hf]
      have hsub : uszSub s.serialisedSize (2 + key.length + 2 + v.length) =
          s.serialisedSize - (2 + key.length + 2 + v.length) := by
        unfold uszSub usz
        omega
      constructor
      · show uszSub s.serialisedSize (2 + key.length + 2 + v.length) =
          FLASHKV_SIGNATURE_SIZE + entriesFootprint (mapErase s.keyValueMap key)
        rw [hsub, her]
        omega
      · show uszSub s.serialisedSize (2 + key.length + 2 + v.length) ≤
          cfg.flashSize
        rw [hsub]
        omega

/-- Witness for C2 (amended) at a concrete input: a loaded map holding
key [1] with tally 10 = 4 + 6 admits a fresh key [3] and an erase while
keeping the invariant and the bound. -/
theorem flashkv_C2_witness :
    ((⟨[([1], [2])], 10, true⟩ : FlashKVState).mapLoaded = true ∧
      sizeInvariant ⟨[([1], [2])], 10, true⟩ ∧
      (10 : Nat) ≤ cfgWide.flashSize ∧
      cfgWide.flashSize < 18446744073709551616 ∧
      (10 : Nat) + 2 + 1 + 2 + 2 < 18446744073709551616) ∧
    ((mapFind [([1], [2])] [3] = none →
        sizeInvariant (writeKey cfgWide ⟨[([1], [2])], 10, true⟩ [3] [4, 5]).2 ∧
        (writeKey cfgWide ⟨[([1], [2])], 10, true⟩ [3] [4, 5]).2.serialisedSize ≤
          cfgWide.flashSize) ∧
      (sizeInvariant (eraseKey ⟨[([1], [2])], 10, true⟩ [3]).2 ∧
        (eraseKey ⟨[([1], [2])], 10, true⟩ [3]).2.serialisedSize ≤
          cfgWide.flashSize)) :=
  ⟨by decide, flashkv_C2 cfgWide ⟨[([1], [2])], 10, true⟩ [3] [4, 5] rfl
    (by decide) (by decide) (by decide) (by decide)⟩

/-- C6 (amended): a successful saveMap on a loaded engine performs
exactly one erase of the whole region followed by exactly one write
call at the region base, whose buffer is the serialised image; whenever
the image (signature plus records) fits in the region, that buffer is
zero-padded up to exactly the region's total size (not merely to a
page multiple, and not split into page-sized chunks). -/
theorem flashkv_C6 {δ : Type} (eraseF : δ → Nat → Nat → Bool × δ)
    (writeF : δ → Nat → List Nat → Bool × δ) (cfg : FlashKVConfig)
    (s : FlashKVState) (d : δ) (hl : s.mapLoaded = true)
    (he : (eraseF d (u32 cfg.flashAddress) cfg.flashSize).1 = true)
    (hw : (writeF (eraseF d (u32 cfg.flashAddress) cfg.flashSize).2
      (u32 cfg.flashAddress) (saveBuffer cfg s.keyValueMap)).1 = true) :
    saveMap eraseF writeF cfg s d =
      (true, s,
        (writeF (eraseF d (u32 cfg.flashAddress) cfg.flashSize).2
          (u32 cfg.flashAddress) (saveBuffer cfg s.keyValueMap)).2,
        [FlashOp.erase (u32 cfg.flashAddress) cfg.flashSize,
          FlashOp.write (u32 cfg.flashAddress)
            (saveBuffer cfg s.keyValueMap)]) ∧
    (FLASHKV_SIGNATURE_SIZE + (serialiseEntries s.keyValueMap).length ≤
        cfg.flashSize →
      (saveBuffer cfg s.keyValueMap).length = cfg.flashSize) := by
  constructor
  · simp [saveMap, hl, he, hw]
  · intro h
    have hsig : FLASHKV_SIGNATURE.length = 4 := rfl
    have hsz : FLASHKV_SIGNATURE_SIZE = 4 := rfl
    rw [hsz] at h
    unfold saveBuffer
    simp only [List.length_append, List.length_replicate, hsig]
    omega

/-- Witness for C6 (amended): the empty loaded map over the 8-byte
region is saved by one erase and one single 8-byte write. -/
theorem flashkv_C6_witness :
    ((⟨[], 4, true⟩ : FlashKVState).mapLoaded = true ∧
      (memEraseF blankMem (u32 cfgPage4.flashAddress) cfgPage4.flashSize).1 =
        true ∧
      (memWriteF (memEraseF blankMem (u32 cfgPage4.flashAddress)
          cfgPage4.flashSize).2 (u32 cfgPage4.flashAddress)
        (saveBuffer cfgPage4 [])).1 = true) ∧
    (saveMap memEraseF memWriteF cfgPage4 ⟨[], 4, true⟩ blankMem =
      (true, ⟨[], 4, true⟩,
        (memWriteF (memEraseF blankMem (u32 cfgPage4.flashAddress)
            cfgPage4.flashSize).2 (u32 cfgPage4.flashAddress)
          (saveBuffer cfgPage4 [])).2,
        [FlashOp.erase (u32 cfgPage4.flashAddress) cfgPage4.flashSize,
          FlashOp.write (u32 cfgPage4.flashAddress)
            (saveBuffer cfgPage4 [])]) ∧
      (FLASHKV_SIGNATURE_SIZE + (serialiseEntries ([] : List (List Nat × List Nat))).length ≤
          cfgPage4.flashSize →
        (saveBuffer cfgPage4 ([] : List (List Nat × List Nat))).length =
          cfgPage4.flashSize)) :=
  ⟨⟨rfl, rfl, rfl⟩,
    flashkv_C6 memEraseF memWriteF cfgPage4 ⟨[], 4, true⟩ blankMem rfl rfl rfl⟩

/-- u32 is the identity below 2^32. -/
theorem u32_id {n : Nat} (h : n < 4294967296) : u32 n = n := Nat.mod_eq_of_lt h

/-- usz is the identity below 2^64. -/
theorem usz_id {n : Nat} (h : n < 18446744073709551616) : usz n = n :=
  Nat.mod_eq_of_lt h

/-- fit on a 2-byte list. -/
theorem fit_two (a b : Nat) : fit 2 [a, b] = [a % 256, b % 256] := rfl

/-- bytesToU16 on a 2-byte list. -/
theorem bytesToU16_two (a b : Nat) : bytesToU16 [a, b] = a + 256 * b := rfl

/-- Reading back a serialised uint16 recovers the value modulo 2^16. -/
theorem bytesToU16_serialiseU16_fit (n : Nat) :
    bytesToU16 (fit 2 (serialiseU16 n)) = n % 65536 := by
  show bytesToU16 (fit 2 [n % 256, n / 256 % 256]) = n % 65536
  rw [fit_two, bytesToU16_two]
  omega

/-- Truncating genuine bytes is the identity. -/
theorem map_mod256 (l : List Nat) (h : ∀ b ∈ l, b < 256) :
    l.map (fun b => b % 256) = l := by
  induction l with
  | nil => rfl
  | cons a t ih =>
    have ha : a < 256 := h a (List.mem_cons_self a t)
    have ht : ∀ b ∈ t, b < 256 := fun b hb => h b (List.mem_cons_of_mem a hb)
    simp [Nat.mod_eq_of_lt ha, ih ht]

/-- fit of a byte list at its own length is the identity. -/
theorem fit_self (l : List Nat) (h : ∀ b ∈ l, b < 256) :
    fit l.length l = l := by
  unfold fit
  rw [List.take_length, map_mod256 l h, Nat.sub_self]
  simp

/-- Agreement with an appended list restricts to its left part. -/
theorem memAgrees_append_left {mem : Mem} {s : Nat} {a b : List Nat}
    (h : memAgrees mem s (a ++ b)) : memAgrees mem s a := by
  intro i hi
  have h2 := h i (by simp; omega)
  rwa [List.getD_append _ _ _ _ hi] at h2

/-- Agreement with an appended list restricts to its right part. -/
theorem memAgrees_append_right {mem : Mem} {s : Nat} {a b : List Nat}
    (h : memAgrees mem s (a ++ b)) : memAgrees mem (s + a.length) b := by
  intro i hi
  have h2 := h (a.length + i) (by simp; omega)
  rw [List.getD_append_right _ _ _ _ (by omega)] at h2
  have h3 : a.length + i - a.length = i := by omega
  rw [h3] at h2
  rwa [Nat.add_assoc] at *

/-- Agreement with both parts gives agreement with the appended list. -/
theorem memAgrees_append_of {mem : Mem} {s : Nat} {a b : List Nat}
    (h1 : memAgrees mem s a) (h2 : memAgrees mem (s + a.length) b) :
    memAgrees mem s (a ++ b) := by
  intro i hi
  by_cases hc : i < a.length
  · rw [List.getD_append _ _ _ _ hc]
    exact h1 i hc
  · rw [List.getD_append_right _ _ _ _ (by omega)]
    have h3 : s + i = s + a.length + (i - a.length) := by omega
    rw [h3]
    exact h2 (i - a.length) (by simp at hi; omega)

/-- A read over a memory agreeing with l returns exactly l. -/
theorem memReadF_of_agrees (mem : Mem) (s : Nat) (l : List Nat)
    (h : memAgrees mem s l) : memReadF mem s l.length = (true, l) := by
  unfold memReadF
  congr 1
  apply List.ext_getElem
  · simp
  · intro i h1 h2
    simp only [List.getElem_map, List.getElem_range]
    rw [h i h2, List.getD_eq_getElem l 0 h2]

/-- The memory after memStore agrees with the stored data. -/
theorem memStore_agrees (m : Mem) (a : Nat) (l : List Nat) :
    memAgrees (memStore m a l) a l := by
  intro i hi
  unfold memStore
  rw [if_pos ⟨by omega, by omega⟩]
  congr 1
  omega

/-- getD of a zero pair is always zero. -/
theorem getD_pair_zero (i : Nat) : ([0, 0] : List Nat).getD i 0 = 0 := by
  match i with
  | 0 => rfl
  | 1 => rfl
  | n + 2 => rfl

/-- getD of a zero replicate is always zero. -/
theorem getD_replicate_zero (n i : Nat) :
    (List.replicate n (0 : Nat)).getD i 0 = 0 := by
  induction n generalizing i with
  | zero => rfl
  | succ n ih =>
    match i with
    | 0 => rfl
    | j + 1 => exact ih j

/-- The length of a serialised uint16. -/
theorem serialiseU16_length (n : Nat) : (serialiseU16 n).length = 2 := rfl

/-- Length of the serialisation of a cons. -/
theorem serialiseEntries_cons_length (k v : List Nat)
    (rest : List (List Nat × List Nat)) :
    (serialiseEntries ((k, v) :: rest)).length =
      2 + k.length + 2 + v.length + (serialiseEntries rest).length := by
  simp [serialiseEntries, serialiseU16]
  omega

/-- The parse loop stops immediately, consuming no offset, when the
2-byte key size read at the current offset is zero. -/
theorem parseLoop_stop (readF : Nat → Nat → Bool × List Nat)
    (base fuel offset : Nat) (m : List (List Nat × List Nat))
    (h : bytesToU16 (fit 2 (readF (u32 (base + offset)) 2).2) = 0) :
    parseLoop readF base (fuel + 1) offset m =
      some (m, offset, [FlashOp.read (u32 (base + offset)) 2]) := by
  simp [parseLoop, h]

/-- One iteration of the parse loop across a well-formed record whose
four reads return the serialised key length, key, value length and
value. -/
theorem parseLoop_record (readF : Nat → Nat → Bool × List Nat)
    (base f offset : Nat) (acc : List (List Nat × List Nat))
    (k v : List Nat) (hk1 : 1 ≤ k.length) (hk2 : k.length < 65536)
    (hv2 : v.length < 65536) (hkb : ∀ b ∈ k, b < 256)
    (hvb : ∀ b ∈ v, b < 256)
    (hbound : base + offset + (2 + k.length + 2 + v.length) < 4294967296)
    (e1 : readF (base + offset) 2 = (true, serialiseU16 k.length))
    (e2 : readF (base + offset + 2) k.length = (true, k))
    (e3 : readF (base + offset + 2 + k.length) 2 = (true, serialiseU16 v.length))
    (e4 : readF (base + offset + 2 + k.length + 2) v.length = (true, v)) :
    parseLoop readF base (f + 1) offset acc =
      (match parseLoop readF base f (offset + 2 + k.length + 2 + v.length)
          (mapInsert acc k v) with
        | none => none
        | some (m2, off2, tr2) =>
          some (m2, off2,
            FlashOp.read (base + offset) 2 ::
            FlashOp.read (base + offset + 2) k.length ::
            FlashOp.read (base + offset + 2 + k.length) 2 ::
            FlashOp.read (base + offset + 2 + k.length + 2) v.length ::
            tr2)) := by
  have hks : bytesToU16 (fit 2 (serialiseU16 k.length)) = k.length := by
    rw [bytesToU16_serialiseU16_fit]
    omega
  have hvs : bytesToU16 (fit 2 (serialiseU16 v.length)) = v.length := by
    rw [bytesToU16_serialiseU16_fit]
    omega
  have hu0 : u32 (base + offset) = base + offset := by unfold u32; omega
  have hz1 : usz (offset + 2) = offset + 2 := by unfold usz; omega
  have hu1 : u32 (base + (offset + 2)) = base + offset + 2 := by
    unfold u32; omega
  have hz2 : usz (offset + 2 + k.length) = offset + 2 + k.length := by
    unfold usz; omega
  have hu2 : u32 (base + (offset + 2 + k.length)) =
      base + offset + 2 + k.length := by unfold u32; omega
  have hz3 : usz (offset + 2 + k.length + 2) = offset + 2 + k.length + 2 := by
    unfold usz; omega
  have hu3 : u32 (base + (offset + 2 + k.length + 2)) =
      base + offset + 2 + k.length + 2 := by unfold u32; omega
  have hz4 : usz (offset + 2 + k.length + 2 + v.length) =
      offset + 2 + k.length + 2 + v.length := by unfold usz; omega
  have hfk : fit k.length k = k := fit_self k hkb
  have hfv : fit v.length v = v := fit_self v hvb
  simp only [parseLoop, hu0, e1, hks, hz1, hu1, e2, hfk, hz2, hu2, e3, hvs,
    hz3, hu3, e4, hfv, hz4, if_neg (by omega : ¬ k.length = 0)]

/-- Folding mapInsert over entries with globally distinct keys appends
them all. -/
theorem foldl_mapInsert_of_nodup :
    ∀ (m acc : List (List Nat × List Nat)),
      ((acc ++ m).map Prod.fst).Nodup →
      m.foldl (fun a kv => mapInsert a kv.1 kv.2) acc = acc ++ m := by
  intro m
  induction m with
  | nil => intro acc h; simp
  | cons kv rest ih =>
    intro acc h
    obtain ⟨k, v⟩ := kv
    have h' : (acc.map Prod.fst ++ (k :: rest.map Prod.fst)).Nodup := by
      simpa using h
    have hk : k ∉ acc.map Prod.fst := fun hmem =>
      (List.disjoint_of_nodup_append h') hmem (List.mem_cons_self k _)
    rw [List.foldl_cons]
    show rest.foldl _ (mapInsert acc k v) = acc ++ (k, v) :: rest
    rw [mapInsert_of_notMem _ _ _ hk]
    have h2 : (((acc ++ [(k, v)]) ++ rest).map Prod.fst).Nodup := by
      rw [List.append_assoc]
      simpa using h
    rw [ih (acc ++ [(k, v)]) h2, List.append_assoc]
    rfl

/-- Folding mapInsert from the empty map over distinct-keyed entries
reproduces exactly those entries. -/
theorem foldl_mapInsert_distinct (m : List (List Nat × List Nat))
    (h : distinctKeys m) :
    m.foldl (fun a kv => mapInsert a kv.1 kv.2) [] = m := by
  have := foldl_mapInsert_of_nodup m [] (by simpa using h)
  simpa using this

/-- Parsing a memory that holds the serialisation of well-formed
entries followed by a 2-byte zero sentinel reproduces the entries (as a
fold of insertions into the accumulator) and leaves the cursor exactly
at the sentinel. -/
theorem parse_serialised (base : Nat) (entries : List (List Nat × List Nat)) :
    ∀ fuel offset acc mem,
      entries.length < fuel →
      (∀ kv ∈ entries, goodEntry kv) →
      base + offset + (serialiseEntries entries).length + 2 ≤ 4294967296 →
      memAgrees mem (base + offset) (serialiseEntries entries ++ [0, 0]) →
      ∃ tr, parseLoop (memReadF mem) base fuel offset acc =
        some (entries.foldl (fun a kv => mapInsert a kv.1 kv.2) acc,
          offset + (serialiseEntries entries).length, tr) := by
  induction entries with
  | nil =>
    intro fuel offset acc mem hfuel hgood hbound hag
    obtain ⟨f, rfl⟩ : ∃ f, fuel = f + 1 := ⟨fuel - 1, by omega⟩
    have hu0 : u32 (base + offset) = base + offset := by unfold u32; omega
    have h0 : mem (base + offset) = 0 := by
      have := hag 0 (by simp [serialiseEntries])
      simpa [serialiseEntries] using this
    have h1 : mem (base + offset + 1) = 0 := by
      have := hag 1 (by simp [serialiseEntries])
      simpa [serialiseEntries] using this
    have hrange : List.range 2 = [0, 1] := rfl
    have hr : memReadF mem (base + offset) 2 = (true, [0, 0]) := by
      unfold memReadF
      rw [hrange]
      simp [h0, h1]
    have hz : bytesToU16 (fit 2 (memReadF mem (u32 (base + offset)) 2).2) = 0 := by
      rw [hu0, hr]
      rfl
    refine ⟨[FlashOp.read (u32 (base + offset)) 2], ?_⟩
    rw [parseLoop_stop _ _ f _ _ hz]
    simp [serialiseEntries]
  | cons kv rest ih =>
    obtain ⟨k, v⟩ := kv
    intro fuel offset acc mem hfuel hgood hbound hag
    obtain ⟨f, rfl⟩ : ∃ f, fuel = f + 1 := ⟨fuel - 1, by omega⟩
    obtain ⟨hk1, hk2, hv2, hkb, hvb⟩ : goodEntry (k, v) :=
      hgood _ (List.mem_cons_self _ _)
    have hlen := serialiseEntries_cons_length k v rest
    have hserEq : serialiseEntries ((k, v) :: rest) ++ [0, 0] =
        serialiseU16 k.length ++ (k ++ (serialiseU16 v.length ++ (v ++
          (serialiseEntries rest ++ [0, 0])))) := by
      show (serialiseU16 k.length ++ k ++ serialiseU16 v.length ++ v ++
        serialiseEntries rest) ++ [0, 0] = _
      simp [List.append_assoc]
    rw [hserEq] at hag
    have hA : memAgrees mem (base + offset) (serialiseU16 k.length) :=
      memAgrees_append_left hag
    have hR1 : memAgrees mem (base + offset + 2)
        (k ++ (serialiseU16 v.length ++ (v ++
          (serialiseEntries rest ++ [0, 0])))) :=
      memAgrees_append_right hag
    have hB : memAgrees mem (base + offset + 2) k := memAgrees_append_left hR1
    have hR2 : memAgrees mem (base + offset + 2 + k.length)
        (serialiseU16 v.length ++ (v ++ (serialiseEntries rest ++ [0, 0]))) :=
      memAgrees_append_right hR1
    have hC : memAgrees mem (base + offset + 2 + k.length)
        (serialiseU16 v.length) := memAgrees_append_left hR2
    have hR3 : memAgrees mem (base + offset + 2 + k.length + 2)
        (v ++ (serialiseEntries rest ++ [0, 0])) := memAgrees_append_right hR2
    have hD : memAgrees mem (base + offset + 2 + k.length + 2) v :=
      memAgrees_append_left hR3
    have hE : memAgrees mem (base + offset + 2 + k.length + 2 + v.length)
        (serialiseEntries rest ++ [0, 0]) := memAgrees_append_right hR3
    have e1 : memReadF mem (base + offset) 2 = (true, serialiseU16 k.length) :=
      memReadF_of_agrees _ _ _ hA
    have e2 : memReadF mem (base + offset + 2) k.length = (true, k) :=
      memReadF_of_agrees _ _ _ hB
    have e3 : memReadF mem (base + offset + 2 + k.length) 2 =
        (true, serialiseU16 v.length) := memReadF_of_agrees _ _ _ hC
    have e4 : memReadF mem (base + offset + 2 + k.length + 2) v.length =
        (true, v) := memReadF_of_agrees _ _ _ hD
    have hbound2 : base + (offset + 2 + k.length + 2 + v.length) +
        (serialiseEntries rest).length + 2 ≤ 4294967296 := by omega
    have hE2 : memAgrees mem (base + (offset + 2 + k.length + 2 + v.length))
        (serialiseEntries rest ++ [0, 0]) := by
      have hx : base + (offset + 2 + k.length + 2 + v.length) =
          base + offset + 2 + k.length + 2 + v.length := by omega
      rw [hx]
      exact hE
    have hfuel2 : rest.length < f := by
      simp only [List.length_cons] at hfuel
      omega
    obtain ⟨tr2, hrec⟩ := ih f (offset + 2 + k.length + 2 + v.length)
      (mapInsert acc k v) mem hfuel2
      (fun kv2 h2 => hgood kv2 (List.mem_cons_of_mem _ h2)) hbound2 hE2
    refine ⟨FlashOp.read (base + offset) 2 ::
      FlashOp.read (base + offset + 2) k.length ::
      FlashOp.read (base + offset + 2 + k.length) 2 ::
      FlashOp.read (base + offset + 2 + k.length + 2) v.length :: tr2, ?_⟩
    rw [parseLoop_record (memReadF mem) base f offset acc k v hk1 hk2 hv2
      hkb hvb (by omega) e1 e2 e3 e4, hrec]
    rw [List.foldl_cons]
    have hoff : offset + (serialiseEntries ((k, v) :: rest)).length =
        offset + 2 + k.length + 2 + v.length +
          (serialiseEntries rest).length := by omega
    rw [hoff]

/-- A successful saveMap over a concrete memory produces the erased
memory overwritten with the serialised buffer at the region base, and
the erase-write trace. -/
theorem saveMap_mem_eq (cfg : FlashKVConfig) (s : FlashKVState) (mem : Mem)
    (hl : s.mapLoaded = true) :
    saveMap memEraseF memWriteF cfg s mem =
      (true, s,
        memStore
          (fun x => if u32 cfg.flashAddress ≤ x ∧
            x < u32 cfg.flashAddress + cfg.flashSize then 255 else mem x)
          (u32 cfg.flashAddress) (saveBuffer cfg s.keyValueMap),
        [FlashOp.erase (u32 cfg.flashAddress) cfg.flashSize,
          FlashOp.write (u32 cfg.flashAddress)
            (saveBuffer cfg s.keyValueMap)]) := by
  simp [saveMap, hl, memEraseF, memWriteF]

/-- C1 (amended): for a loaded engine whose map has distinct keys, all
of them nonempty and shorter than 2^16 with values shorter than 2^16
(as any sequence of successful writeKey/eraseKey operations on such
keys maintains), and whose serialised image leaves at least 2 bytes of
zero padding inside the region (room for the sentinel the parser stops
at), saveMap succeeds and a fresh engine's loadMap over the written
memory succeeds with exactly the saved map.  The original unrestricted
claim fails for the empty key (see the counterexample), which writeKey
accepts but whose record the loader reads as the sentinel. -/
theorem flashkv_C1 (cfg : FlashKVConfig) (s : FlashKVState) (mem : Mem)
    (fuel : Nat) (hl : s.mapLoaded = true) (hnd : distinctKeys s.keyValueMap)
    (hgood : ∀ kv ∈ s.keyValueMap, goodEntry kv)
    (hroom : FLASHKV_SIGNATURE_SIZE + (serialiseEntries s.keyValueMap).length +
      2 ≤ cfg.flashSize)
    (haddr : cfg.flashAddress + cfg.flashSize ≤ 4294967296)
    (hfuel : s.keyValueMap.length < fuel) :
    (saveMap memEraseF memWriteF cfg s mem).1 = true ∧
    ∃ tr, loadMap (memReadF (saveMap memEraseF memWriteF cfg s mem).2.2.1)
        cfg initialState fuel =
      some (0, ⟨s.keyValueMap,
        FLASHKV_SIGNATURE_SIZE + (serialiseEntries s.keyValueMap).length,
        true⟩, tr) := by
  have hsig4 : FLASHKV_SIGNATURE_SIZE = 4 := rfl
  have hsiglen : FLASHKV_SIGNATURE.length = 4 := rfl
  rw [hsig4] at hroom
  have hsv := saveMap_mem_eq cfg s mem hl
  have hbase : u32 cfg.flashAddress = cfg.flashAddress := by
    unfold u32; omega
  constructor
  · rw [hsv]
  · obtain ⟨m0, hm0⟩ : ∃ m0,
        (saveMap memEraseF memWriteF cfg s mem).2.2.1 =
          memStore m0 cfg.flashAddress (saveBuffer cfg s.keyValueMap) :=
      ⟨_, by rw [hsv, hbase]⟩
    rw [hm0]
    have hbufEq : saveBuffer cfg s.keyValueMap =
        FLASHKV_SIGNATURE ++ (serialiseEntries s.keyValueMap ++
          List.replicate
            (cfg.flashSize - (4 + (serialiseEntries s.keyValueMap).length))
            0) := by
      show (FLASHKV_SIGNATURE ++ serialiseEntries s.keyValueMap) ++
        List.replicate (cfg.flashSize -
          (FLASHKV_SIGNATURE ++ serialiseEntries s.keyValueMap).length) 0 = _
      rw [List.length_append, hsiglen, List.append_assoc]
    rw [hbufEq]
    set M := memStore m0 cfg.flashAddress
      (FLASHKV_SIGNATURE ++ (serialiseEntries s.keyValueMap ++
        List.replicate
          (cfg.flashSize - (4 + (serialiseEntries s.keyValueMap).length))
          0)) with hM
    have hagB : memAgrees M cfg.flashAddress
        (FLASHKV_SIGNATURE ++ (serialiseEntries s.keyValueMap ++
          List.replicate
            (cfg.flashSize - (4 + (serialiseEntries s.keyValueMap).length))
            0)) := memStore_agrees _ _ _
    have hsg : memAgrees M cfg.flashAddress FLASHKV_SIGNATURE :=
      memAgrees_append_left hagB
    have hrest : memAgrees M (cfg.flashAddress + 4)
        (serialiseEntries s.keyValueMap ++
          List.replicate
            (cfg.flashSize - (4 + (serialiseEntries s.keyValueMap).length))
            0) := memAgrees_append_right hagB
    have hserA : memAgrees M (cfg.flashAddress + 4)
        (serialiseEntries s.keyValueMap) := memAgrees_append_left hrest
    have hpadA : memAgrees M
        (cfg.flashAddress + 4 + (serialiseEntries s.keyValueMap).length)
        (List.replicate
          (cfg.flashSize - (4 + (serialiseEntries s.keyValueMap).length)) 0) :=
      memAgrees_append_right hrest
    have hzz : memAgrees M
        (cfg.flashAddress + 4 + (serialiseEntries s.keyValueMap).length)
        [0, 0] := by
      intro i hi
      simp only [List.length_cons, List.length_nil] at hi
      have := hpadA i (by simp only [List.length_replicate]; omega)
      rw [getD_replicate_zero] at this
      rw [this, getD_pair_zero]
    have hserzz : memAgrees M (cfg.flashAddress + 4)
        (serialiseEntries s.keyValueMap ++ [0, 0]) :=
      memAgrees_append_of hserA hzz
    have hrSig : memReadF M cfg.flashAddress 4 = (true, FLASHKV_SIGNATURE) :=
      memReadF_of_agrees _ _ _ hsg
    have hbound : cfg.flashAddress + 4 +
        (serialiseEntries s.keyValueMap).length + 2 ≤ 4294967296 := by omega
    obtain ⟨tr, hparse⟩ := parse_serialised cfg.flashAddress s.keyValueMap
      fuel 4 [] M hfuel hgood hbound hserzz
    have hfold := foldl_mapInsert_distinct s.keyValueMap hnd
    rw [hfold] at hparse
    have hfit : fit 4 FLASHKV_SIGNATURE = FLASHKV_SIGNATURE := rfl
    refine ⟨FlashOp.read cfg.flashAddress 4 :: tr, ?_⟩
    simp only [loadMap, FLASHKV_SIGNATURE_SIZE, initialState, hbase, hrSig,
      hfit, hparse]
    simp

/-- Witness for C1 (amended): the singleton map with key [97] and value
[5] round-trips through saveMap and a fresh loadMap on the 32-byte
region. -/
theorem flashkv_C1_witness :
    ((⟨[([97], [5])], 10, true⟩ : FlashKVState).mapLoaded = true ∧
      distinctKeys [([97], [5])] ∧
      (∀ kv ∈ [(([97] : List Nat), ([5] : List Nat))], goodEntry kv) ∧
      FLASHKV_SIGNATURE_SIZE +
        (serialiseEntries [([97], [5])]).length + 2 ≤ cfgSmall.flashSize ∧
      cfgSmall.flashAddress + cfgSmall.flashSize ≤ 4294967296 ∧
      ([(([97] : List Nat), ([5] : List Nat))]).length < 2) ∧
    ((saveMap memEraseF memWriteF cfgSmall ⟨[([97], [5])], 10, true⟩
        blankMem).1 = true ∧
      ∃ tr, loadMap
          (memReadF (saveMap memEraseF memWriteF cfgSmall
            ⟨[([97], [5])], 10, true⟩ blankMem).2.2.1) cfgSmall
          initialState 2 =
        some (0, ⟨[([97], [5])],
          FLASHKV_SIGNATURE_SIZE + (serialiseEntries [([97], [5])]).length,
          true⟩, tr)) :=
  ⟨by decide,
    flashkv_C1 cfgSmall ⟨[([97], [5])], 10, true⟩ blankMem 2 rfl (by decide)
      (by decide) (by decide) (by decide) (by decide)⟩

/-- Every entry of a fitted buffer is a byte. -/
theorem mem_fit_lt (n : Nat) (l : List Nat) : ∀ x ∈ fit n l, x < 256 := by
  intro x hx
  unfold fit at hx
  rcases List.mem_append.mp hx with h | h
  · obtain ⟨b, _, rfl⟩ := List.mem_map.mp h
    exact Nat.mod_lt _ (by omega)
  · rw [List.eq_of_mem_replicate h]
    omega

/-- getD stays below 256 on byte lists. -/
theorem getD_lt_of_all (l : List Nat) (h : ∀ x ∈ l, x < 256) (i : Nat) :
    l.getD i 0 < 256 := by
  by_cases hc : i < l.length
  · rw [List.getD_eq_getElem l 0 hc]
    exact h _ (List.getElem_mem hc)
  · rw [List.getD_eq_default l 0 (by omega)]
    omega

/-- A 2-byte length field always decodes below 2^16. -/
theorem bytesToU16_lt (l : List Nat) : bytesToU16 (fit 2 l) < 65536 := by
  have h := mem_fit_lt 2 l
  have h0 := getD_lt_of_all _ h 0
  have h1 := getD_lt_of_all _ h 1
  unfold bytesToU16
  omega

/-- Specification of a terminating parse scan: the cursor never moves
backwards, the scan stops exactly on a record whose decoded key length
is zero, every read it performs lies between the start offset and 2
bytes past the final offset (the sentinel read itself), and the whole
run — result, final offset and trace — is unchanged under any read
function that agrees on that window, i.e. the scan never looks past the
sentinel. -/
theorem parseLoop_spec (readF : Nat → Nat → Bool × List Nat) (base : Nat) :
    ∀ fuel off0 acc m off tr,
      parseLoop readF base fuel off0 acc = some (m, off, tr) →
      base + off0 + fuel * 131074 < 4294967296 →
      off0 ≤ off ∧
      bytesToU16 (fit 2 (readF (base + off) 2).2) = 0 ∧
      (∀ a c, FlashOp.read a c ∈ tr →
        base + off0 ≤ a ∧ a + c ≤ base + off + 2) ∧
      (∀ readF', (∀ a c, base + off0 ≤ a → a + c ≤ base + off + 2 →
          readF' a c = readF a c) →
        parseLoop readF' base fuel off0 acc = some (m, off, tr)) := by
  intro fuel
  induction fuel with
  | zero =>
    intro off0 acc m off tr h hb
    simp [parseLoop] at h
  | succ f ih =>
    intro off0 acc m off tr h hb
    have hu0 : u32 (base + off0) = base + off0 := by unfold u32; omega
    by_cases hks : bytesToU16 (fit 2 (readF (u32 (base + off0)) 2).2) = 0
    · rw [parseLoop_stop _ _ f _ _ hks] at h
      rw [hu0] at hks h
      simp only [Option.some.injEq, Prod.mk.injEq] at h
      obtain ⟨h1, h2, h3⟩ := h
      subst h1
      subst h2
      subst h3
      refine ⟨Nat.le_refl _, hks, ?_, ?_⟩
      · intro a c hmem
        simp only [List.mem_cons, List.not_mem_nil, or_false,
          FlashOp.read.injEq] at hmem
        obtain ⟨rfl, rfl⟩ := hmem
        omega
      · intro readF' hagree
        have hr' : readF' (base + off0) 2 = readF (base + off0) 2 :=
          hagree _ _ (Nat.le_refl _) (by omega)
        have hks' : bytesToU16 (fit 2 (readF' (u32 (base + off0)) 2).2) = 0 := by
          rw [hu0, hr']
          exact hks
        rw [parseLoop_stop _ _ f _ _ hks', hu0]
    · simp only [parseLoop] at h
      rw [hu0] at h hks
      rw [if_neg hks] at h
      have hz1 : usz (off0 + 2) = off0 + 2 := by unfold usz; omega
      rw [hz1] at h
      set KS := bytesToU16 (fit 2 (readF (base + off0) 2).2) with hKSdef
      have hKSlt : KS < 65536 := by rw [hKSdef]; exact bytesToU16_lt _
      have hu1 : u32 (base + (off0 + 2)) = base + (off0 + 2) := by
        unfold u32; omega
      rw [hu1] at h
      have hz2 : usz (off0 + 2 + KS) = off0 + 2 + KS := by unfold usz; omega
      rw [hz2] at h
      have hu2 : u32 (base + (off0 + 2 + KS)) = base + (off0 + 2 + KS) := by
        unfold u32; omega
      rw [hu2] at h
      have hz3 : usz (off0 + 2 + KS + 2) = off0 + 2 + KS + 2 := by
        unfold usz; omega
      rw [hz3] at h
      set VS := bytesToU16 (fit 2 (readF (base + (off0 + 2 + KS)) 2).2)
        with hVSdef
      have hVSlt : VS < 65536 := by rw [hVSdef]; exact bytesToU16_lt _
      have hu3 : u32 (base + (off0 + 2 + KS + 2)) =
          base + (off0 + 2 + KS + 2) := by unfold u32; omega
      rw [hu3] at h
      have hz4 : usz (off0 + 2 + KS + 2 + VS) = off0 + 2 + KS + 2 + VS := by
        unfold usz; omega
      rw [hz4] at h
      set KEY := fit KS (readF (base + (off0 + 2)) KS).2 with hKEY
      set VAL := fit VS (readF (base + (off0 + 2 + KS + 2)) VS).2 with hVAL
      cases hrec : parseLoop readF base f (off0 + 2 + KS + 2 + VS)
          (mapInsert acc KEY VAL) with
      | none =>
        rw [hrec] at h
        simp at h
      | some trip =>
        obtain ⟨m2, off2, tr2⟩ := trip
        rw [hrec] at h
        simp only [Option.some.injEq, Prod.mk.injEq] at h
        obtain ⟨hm, hoff, htr⟩ := h
        subst hm
        subst hoff
        subst htr
        have hb2 : base + (off0 + 2 + KS + 2 + VS) + f * 131074 <
            4294967296 := by omega
        obtain ⟨ih1, ih2, ih3, ih4⟩ := ih (off0 + 2 + KS + 2 + VS)
          (mapInsert acc KEY VAL) m2 off2 tr2 hrec hb2
        refine ⟨by omega, ih2, ?_, ?_⟩
        · intro a c hmem
          simp only [List.mem_cons, FlashOp.read.injEq] at hmem
          rcases hmem with ⟨rfl, rfl⟩ | ⟨rfl, rfl⟩ | ⟨rfl, rfl⟩ |
            ⟨rfl, rfl⟩ | h1
          · omega
          · omega
          · omega
          · omega
          · have := ih3 a c h1
            omega
        · intro readF' hagree
          have hga : ∀ a c, base + (off0 + 2 + KS + 2 + VS) ≤ a →
              a + c ≤ base + off2 + 2 → readF' a c = readF a c :=
            fun a c h1 h2 => hagree a c (by omega) h2
          have hrec' := ih4 readF' hga
          have hr1 : readF' (base + off0) 2 = readF (base + off0) 2 :=
            hagree _ _ (by omega) (by omega)
          have hr2 : readF' (base + (off0 + 2)) KS =
              readF (base + (off0 + 2)) KS := hagree _ _ (by omega) (by omega)
          have hr3 : readF' (base + (off0 + 2 + KS)) 2 =
              readF (base + (off0 + 2 + KS)) 2 :=
            hagree _ _ (by omega) (by omega)
          have hr4 : readF' (base + (off0 + 2 + KS + 2)) VS =
              readF (base + (off0 + 2 + KS + 2)) VS :=
            hagree _ _ (by omega) (by omega)
          simp only [parseLoop]
          rw [hu0, hr1, ← hKSdef, if_neg hks, hz1, hu1, hr2, ← hKEY, hz2,
            hu2, hr3, ← hVSdef, hz3, hu3, hr4, ← hVAL, hz4, hrec']

/-- C9: when loadMap succeeds on a region with a valid signature
(result 0), the record scan stopped exactly on the first record whose
2-byte key length decodes to zero: the stored cursor (the new
serialisedSize) is the offset of that sentinel record — the cursor was
not advanced past it; every read performed lies within the first
serialisedSize + 2 bytes of the region (the last 2 being the sentinel
read itself), so nothing is read beyond the sentinel; and the entire
result is unchanged under any read function agreeing on that prefix,
so arbitrary garbage after the sentinel cannot influence the load. -/
theorem flashkv_C9 (readF : Nat → Nat → Bool × List Nat)
    (cfg : FlashKVConfig) (s : FlashKVState) (fuel : Nat)
    (s' : FlashKVState) (tr : List FlashOp)
    (hload : loadMap readF cfg s fuel = some (0, s', tr))
    (hb : cfg.flashAddress + 4 + fuel * 131074 < 4294967296) :
    bytesToU16 (fit 2 (readF (cfg.flashAddress + s'.serialisedSize) 2).2) =
      0 ∧
    (∀ a c, FlashOp.read a c ∈ tr →
      a + c ≤ cfg.flashAddress + s'.serialisedSize + 2) ∧
    (∀ readF', (∀ a c, a + c ≤ cfg.flashAddress + s'.serialisedSize + 2 →
        readF' a c = readF a c) →
      loadMap readF' cfg s fuel = some (0, s', tr)) := by
  have h4 : FLASHKV_SIGNATURE_SIZE = 4 := rfl
  have hbase : u32 cfg.flashAddress = cfg.flashAddress := by
    unfold u32; omega
  simp only [loadMap, hbase] at hload
  by_cases hflag : (readF cfg.flashAddress FLASHKV_SIGNATURE_SIZE).1 = false
  · rw [if_pos hflag] at hload
    simp at hload
  · rw [if_neg hflag] at hload
    by_cases hsig : fit FLASHKV_SIGNATURE_SIZE
        (readF cfg.flashAddress FLASHKV_SIGNATURE_SIZE).2 = FLASHKV_SIGNATURE
    · rw [if_pos hsig] at hload
      cases hpar : parseLoop readF cfg.flashAddress fuel
          FLASHKV_SIGNATURE_SIZE s.keyValueMap with
      | none =>
        rw [hpar] at hload
        simp at hload
      | some trip =>
        obtain ⟨m, offv, ptr⟩ := trip
        rw [hpar] at hload
        simp only [Option.some.injEq, Prod.mk.injEq, true_and] at hload
        obtain ⟨hs', htr⟩ := hload
        subst hs'
        subst htr
        obtain ⟨o1, o2, o3, o4⟩ := parseLoop_spec readF cfg.flashAddress
          fuel FLASHKV_SIGNATURE_SIZE s.keyValueMap m offv ptr hpar
          (by omega)
        refine ⟨o2, ?_, ?_⟩
        · intro a c hmem
          rcases List.mem_cons.mp hmem with h1 | h1
          · simp only [FlashOp.read.injEq] at h1
            obtain ⟨rfl, rfl⟩ := h1
            show cfg.flashAddress + FLASHKV_SIGNATURE_SIZE ≤
              cfg.flashAddress + offv + 2
            omega
          · have := (o3 a c h1).2
            exact this
        · intro readF' hagree
          have hagree2 : ∀ a c,
              cfg.flashAddress + FLASHKV_SIGNATURE_SIZE ≤ a →
              a + c ≤ cfg.flashAddress + offv + 2 →
              readF' a c = readF a c :=
            fun a c _ h2 => hagree a c h2
          have hload' := o4 readF' hagree2
          have hrsig : readF' cfg.flashAddress FLASHKV_SIGNATURE_SIZE =
              readF cfg.flashAddress FLASHKV_SIGNATURE_SIZE :=
            hagree _ _ (by show cfg.flashAddress + FLASHKV_SIGNATURE_SIZE ≤
              cfg.flashAddress + offv + 2; omega)
          simp only [loadMap, hbase, hrsig, if_neg hflag, if_pos hsig,
            hload']
    · rw [if_neg hsig] at hload
      simp at hload

/-- Witness for C9 at a concrete input: loading the bare-signature
image (sentinel immediately at offset 4). -/
theorem flashkv_C9_witness :
    (loadMap (memReadF memSigOnly) cfgSmall initialState 2 =
        some (0, ⟨[], 4, true⟩, [FlashOp.read 0 4, FlashOp.read 4 2]) ∧
      cfgSmall.flashAddress + 4 + 2 * 131074 < 4294967296) ∧
    (bytesToU16 (fit 2 (memReadF memSigOnly
        (cfgSmall.flashAddress +
          (⟨[], 4, true⟩ : FlashKVState).serialisedSize) 2).2) = 0 ∧
      (∀ a c, FlashOp.read a c ∈ [FlashOp.read 0 4, FlashOp.read 4 2] →
        a + c ≤ cfgSmall.flashAddress +
          (⟨[], 4, true⟩ : FlashKVState).serialisedSize + 2) ∧
      (∀ readF', (∀ a c, a + c ≤ cfgSmall.flashAddress +
          (⟨[], 4, true⟩ : FlashKVState).serialisedSize + 2 →
          readF' a c = memReadF memSigOnly a c) →
        loadMap readF' cfgSmall initialState 2 =
          some (0, ⟨[], 4, true⟩,
            [FlashOp.read 0 4, FlashOp.read 4 2]))) :=
  ⟨⟨by decide, by decide⟩,
    flashkv_C9 (memReadF memSigOnly) cfgSmall initialState 2 ⟨[], 4, true⟩
      [FlashOp.read 0 4, FlashOp.read 4 2] (by decide) (by decide)⟩

/-- Counterexample to C1 as stated: a found load (returns 0), one
successful writeKey — of the empty key, which the engine accepts — a
successful saveMap, and a successful fresh load.  The fresh engine's
map is empty rather than equal to the saved map: the empty key was
serialised as a zero key-length record, which the load parser treats as
the end-of-records sentinel. -/
theorem flashkv_C1_cex :
    loadMap (memReadF memSigOnly) cfgSmall initialState 2 =
      some (0, ⟨[], 4, true⟩, [FlashOp.read 0 4, FlashOp.read 4 2]) ∧
    writeKey cfgSmall ⟨[], 4, true⟩ [] [7] =
      (true, ⟨[([], [7])], 9, true⟩) ∧
    (saveMap memEraseF memWriteF cfgSmall ⟨[([], [7])], 9, true⟩
        blankMem).1 = true ∧
    loadMap
      (memReadF
        (saveMap memEraseF memWriteF cfgSmall ⟨[([], [7])], 9, true⟩
          blankMem).2.2.1) cfgSmall initialState 2 =
      some (0, ⟨[], 4, true⟩, [FlashOp.read 0 4, FlashOp.read 4 2]) ∧
    readKey ⟨[([], [7])], 9, true⟩ [] = some [7] ∧
    readKey ⟨[], 4, true⟩ [] = none := by
  decide

end FlashKV
